import Mathlib

/-!
Verification of the token-stream adapter, token matchers and diagnostic helper of the
`combine-proc-macro` crate, against a shallow embedding of `src/input.rs`,
`src/parser.rs` and `src/diagnostic.rs`.

Host types (`proc_macro2`) are represented by their observable content: spans are
opaque read-only metadata and are dropped, identifiers and literals are carried as
their rendered text, punctuation as its char (all comparisons in the embedded code
compare exactly these surfaces).
-/

set_option maxHeartbeats 1000000
set_option linter.unusedTactic false
set_option linter.unreachableTactic false
set_option linter.unusedVariables false

namespace CPM

/-- Delimiter kinds of the host token tree (`proc_macro2::Delimiter`). -/
inductive Delimiter where
  | parenthesis
  | brace
  | bracket
  | none
  deriving DecidableEq, Repr

/-- Flattened token alphabet (`Token` in src/input.rs).  Spans omitted: `PartialEq`
on the Rust type compares delimiter chars, punct chars and rendered text only. -/
inductive Token where
  | delim (c : Char)
  | punct (c : Char)
  | ident (text : String)
  | literal (text : String)
  deriving DecidableEq, Repr

/-- Host token tree (`proc_macro2::TokenTree`), by observable content. -/
inductive TokenTree where
  | punct (c : Char)
  | ident (text : String)
  | literal (text : String)
  | group (d : Delimiter) (children : List TokenTree)

mutual
/-- Structural size of a token tree (measure for the flattening loop). -/
def TokenTree.size : TokenTree → Nat
  | .punct _ => 1
  | .ident _ => 1
  | .literal _ => 1
  | .group _ children => 1 + treesSize children

/-- Total size of a list of token trees. -/
def treesSize : List TokenTree → Nat
  | [] => 0
  | t :: ts => TokenTree.size t + treesSize ts
end

/-- One flattening frame: the not-yet-consumed children of one nesting level (the Rust
`IntoIter`), plus the pending close token to emit once they are exhausted.  An entry of
`Input::source_stack`; the TOP of the Rust `Vec` is the HEAD of this list. -/
abbrev Frame := List TokenTree × Option Token

/-- The stream-adapter state (`Input` in src/input.rs). -/
structure Input where
  source_stack : List Frame
  source_pos : Nat

/-- The `(open, close)` surface chars of a delimiter (the match inside
`Input::ungroup`, src/input.rs). -/
def delimChars : Delimiter → Option Char × Option Char
  | .parenthesis => (some '(', some ')')
  | .brace => (some '\x7b', some '\x7d')
  | .bracket => (some '[', some ']')
  | .none => (Option.none, Option.none)

/-- Total tree content of a frame stack. -/
def stackTrees : List Frame → Nat
  | [] => 0
  | (trees, _) :: rest => treesSize trees + stackTrees rest

/-- Termination measure for the flattening loop: every loop iteration of
`Input::next` strictly decreases it. -/
def stackMeasure (stack : List Frame) : Nat :=
  2 * stackTrees stack + stack.length

/-- The while loop of `Input::next` (src/input.rs), acting on the frame stack and
returning the produced token, if any, together with the updated stack.
`Input::ungroup` is inlined at the `tt :: ts` cases: for a group it pushes the frame
`(children, close)` and returns the open token; when `ungroup` returns no token
(a `Delimiter::None` group) the loop falls through to `source_stack.pop()`, which
removes the frame that was just pushed and tests its pending close token. -/
def nextAux : List Frame → Option Token × List Frame
  | [] => (Option.none, [])
  | ([], close) :: rest =>
      -- top iterator exhausted: pop the frame, emit its pending close token if any
      match close with
      | Option.some tok => (Option.some tok, rest)
      | Option.none => nextAux rest
  | (TokenTree.punct c :: ts, close) :: rest =>
      (Option.some (Token.punct c), (ts, close) :: rest)
  | (TokenTree.ident text :: ts, close) :: rest =>
      (Option.some (Token.ident text), (ts, close) :: rest)
  | (TokenTree.literal text :: ts, close) :: rest =>
      (Option.some (Token.literal text), (ts, close) :: rest)
  | (TokenTree.group d children :: ts, close) :: rest =>
      match (delimChars d).1 with
      | Option.some c =>
          (Option.some (Token.delim c),
            (children, ((delimChars d).2).map Token.delim) :: (ts, close) :: rest)
      | Option.none =>
          -- the frame pushed for the children is popped at once; its close token
          -- (if any) would be emitted, otherwise the loop continues
          match ((delimChars d).2).map Token.delim with
          | Option.some tok => (Option.some tok, (ts, close) :: rest)
          | Option.none => nextAux ((ts, close) :: rest)
termination_by stack => stackMeasure stack
decreasing_by
  all_goals first
    | (simp [stackMeasure, stackTrees, treesSize, TokenTree.size]; omega)
    | simp [stackMeasure, stackTrees, treesSize, TokenTree.size]

/-- The `Input::is_empty` (src/input.rs): true iff the frame stack is empty. -/
def Input.is_empty (s : Input) : Bool :=
  s.source_stack.isEmpty

/-- The `Input::next` (src/input.rs): runs the loop on the stack (the early return for an
empty stack coincides with `nextAux []`); `source_pos` is untouched. -/
def Input.next (s : Input) : Option Token × Input :=
  ((nextAux s.source_stack).1, { s with source_stack := (nextAux s.source_stack).2 })

/-- The stream error produced by `Input::uncons` (`Error::end_of_input()`). -/
inductive StreamError where
  | end_of_input
  deriving DecidableEq, Repr

/-- The `StreamOnce::uncons` for `Input` (src/input.rs): `next()` runs (mutating the stack)
before the result is inspected; only a produced token bumps `source_pos`. -/
def Input.uncons (s : Input) : Except StreamError Token × Input :=
  match Input.next s with
  | (Option.none, s') => (Except.error StreamError.end_of_input, s')
  | (Option.some tok, s') => (Except.ok tok, { s' with source_pos := s'.source_pos + 1 })

/-- The `Positioned::position` for `Input` (src/input.rs). -/
def Input.position (s : Input) : Nat :=
  s.source_pos

/-- The `From<TokenStream> for Input` (src/input.rs): a single close-less frame. -/
def Input.fromStream (ts : List TokenTree) : Input :=
  ⟨[(ts, Option.none)], 0⟩

/-- The `ResetStream::checkpoint` for `Input` (src/input.rs): a full clone. -/
def Input.checkpoint (s : Input) : Input :=
  s

/-- The `ResetStream::reset` for `Input` (src/input.rs): `*self = checkpoint; Ok(())`. -/
def Input.reset (_s : Input) (cp : Input) : Except StreamError Unit × Input :=
  (Except.ok (), cp)

/-- The `TryFrom<Token> for TokenTree` (src/input.rs): a `Delim` token has no tree form. -/
def Token.toTree : Token → Option TokenTree
  | .delim _ => Option.none
  | .punct c => Option.some (TokenTree.punct c)
  | .ident text => Option.some (TokenTree.ident text)
  | .literal text => Option.some (TokenTree.literal text)

/-- The close-token contribution of one frame in `From<Input> for TokenStream`:
`close.into_iter().map(|tok| TokenTree::try_from(tok).unwrap())` — the `unwrap`
panics (modelled as `none`) when the token has no tree form. -/
def closeTrees : Option Token → Option (List TokenTree)
  | Option.none => Option.some []
  | Option.some tok => (Token.toTree tok).map (fun t => [t])

/-- The `From<Input> for TokenStream` (src/input.rs), on the frame stack: iterates the
frames innermost first (`.rev()` over the Rust `Vec` = head first here), appending each
frame's remaining children and then its pending close token; `none` models the panic
of the `unwrap` on an unconvertible close token. -/
def framesToTrees : List Frame → Option (List TokenTree)
  | [] => Option.some []
  | (source, close) :: rest =>
      match closeTrees close, framesToTrees rest with
      | Option.some cts, Option.some rts => Option.some (source ++ cts ++ rts)
      | _, _ => Option.none

/-- The `From<Input> for TokenStream` (src/input.rs). -/
def Input.intoTokenStream (s : Input) : Option (List TokenTree) :=
  framesToTrees s.source_stack

/-- Every successful step of the flattening loop strictly shrinks the measure
(the fact that bounds the drain loops below). -/
def nextAuxDecreases :
    ∀ stack tok st', nextAux stack = (Option.some tok, st') →
      stackMeasure st' < stackMeasure stack := by
  intro stack
  induction stack with
  | nil =>
      intro tok st' h
      simp [nextAux] at h
  | cons frame rest ih =>
      obtain ⟨trees, close⟩ := frame
      induction trees with
      | nil =>
          intro tok st' h
          cases close with
          | none =>
              rw [nextAux] at h
              refine lt_trans (ih tok st' h) ?_
              first
                | (simp [stackMeasure, stackTrees, treesSize]; omega)
                | simp [stackMeasure, stackTrees, treesSize]
          | some tk =>
              rw [nextAux] at h
              injection h with h1 h2
              subst h2
              first
                | (simp [stackMeasure, stackTrees, treesSize]; omega)
                | simp [stackMeasure, stackTrees, treesSize]
      | cons tt ts ihts =>
          intro tok st' h
          cases tt with
          | punct c =>
              rw [nextAux] at h
              injection h with h1 h2
              subst h2
              first
                | (simp [stackMeasure, stackTrees, treesSize, TokenTree.size]; omega)
                | simp [stackMeasure, stackTrees, treesSize, TokenTree.size]
          | ident text =>
              rw [nextAux] at h
              injection h with h1 h2
              subst h2
              first
                | (simp [stackMeasure, stackTrees, treesSize, TokenTree.size]; omega)
                | simp [stackMeasure, stackTrees, treesSize, TokenTree.size]
          | literal text =>
              rw [nextAux] at h
              injection h with h1 h2
              subst h2
              first
                | (simp [stackMeasure, stackTrees, treesSize, TokenTree.size]; omega)
                | simp [stackMeasure, stackTrees, treesSize, TokenTree.size]
          | group d children =>
              rw [nextAux] at h
              cases d with
              | none =>
                  simp only [delimChars, Option.map_none] at h
                  refine lt_trans (ihts tok st' h) ?_
                  first
                    | (simp [stackMeasure, stackTrees, treesSize, TokenTree.size]; omega)
                    | simp [stackMeasure, stackTrees, treesSize, TokenTree.size]
              | parenthesis =>
                  simp only [delimChars] at h
                  injection h with h1 h2
                  subst h2
                  first
                    | (simp [stackMeasure, stackTrees, treesSize, TokenTree.size]; omega)
                    | simp [stackMeasure, stackTrees, treesSize, TokenTree.size]
              | brace =>
                  simp only [delimChars] at h
                  injection h with h1 h2
                  subst h2
                  first
                    | (simp [stackMeasure, stackTrees, treesSize, TokenTree.size]; omega)
                    | simp [stackMeasure, stackTrees, treesSize, TokenTree.size]
              | bracket =>
                  simp only [delimChars] at h
                  injection h with h1 h2
                  subst h2
                  first
                    | (simp [stackMeasure, stackTrees, treesSize, TokenTree.size]; omega)
                    | simp [stackMeasure, stackTrees, treesSize, TokenTree.size]

/-- Draining observation: the full token sequence the adapter will produce from a frame
stack (repeated `Input::next` until it reports end of stream). -/
def drain (stack : List Frame) : List Token :=
  match h : nextAux stack with
  | (Option.none, _) => []
  | (Option.some tok, st') => tok :: drain st'
termination_by stackMeasure stack
decreasing_by exact nextAuxDecreases stack tok st' h

/-- The observable remaining token sequence of a stream. -/
def remaining (s : Input) : List Token :=
  drain s.source_stack

/-! ## The token-matcher layer (src/parser.rs) -/

/-- Error descriptions carried by parse errors (`I::Error::empty(position)` holds no
description; the end-of-input error keeps its kind). -/
inductive ErrKind where
  | empty
  | end_of_input_err
  deriving DecidableEq, Repr

/-- A parse error: the position it was raised at plus its kind. -/
structure PError where
  position : Nat
  kind : ErrKind
  deriving DecidableEq, Repr

/-- The `combine::ParseResult` (`PeekOk`/`CommitOk`/`PeekErr`/`CommitErr`). -/
inductive ParseResult (α : Type) where
  | peekOk (a : α)
  | commitOk (a : α)
  | peekErr (e : PError)
  | commitErr (e : PError)

/-- Whether a parse result is a failure. -/
def ParseResult.isErr {α : Type} : ParseResult α → Bool
  | .peekErr _ => true
  | .commitErr _ => true
  | _ => false

/-- The `combine::stream::uncons`: calls `StreamOnce::uncons`; `Ok` becomes `CommitOk`, an
error is wrapped by `wrap_stream_error`, which yields `PeekErr` because
`Input::is_partial()` is `false`. -/
def streamUncons (s : Input) : ParseResult Token × Input :=
  match Input.uncons s with
  | (Except.ok tok, s') => (ParseResult.commitOk tok, s')
  | (Except.error _, s') =>
      (ParseResult.peekErr ⟨Input.position s', ErrKind.end_of_input_err⟩, s')

/-- The `Ident::parse_lazy` (src/parser.rs). -/
def identParseLazy (s : Input) : ParseResult String × Input :=
  let position := Input.position s
  match streamUncons s with
  | (ParseResult.peekOk tok, s') | (ParseResult.commitOk tok, s') =>
      match tok with
      | Token.ident text => (ParseResult.commitOk text, s')
      | _ => (ParseResult.peekErr ⟨position, ErrKind.empty⟩, s')
  | (ParseResult.peekErr e, s') => (ParseResult.peekErr e, s')
  | (ParseResult.commitErr e, s') => (ParseResult.commitErr e, s')

/-- The `Keyword::parse_lazy` (src/parser.rs): accepts an `Ident` whose text is `word`. -/
def keywordParseLazy (word : String) (s : Input) : ParseResult Token × Input :=
  let position := Input.position s
  match streamUncons s with
  | (ParseResult.peekOk tok, s') | (ParseResult.commitOk tok, s') =>
      match tok with
      | Token.ident text =>
          if text = word then (ParseResult.commitOk (Token.ident text), s')
          else (ParseResult.peekErr ⟨position, ErrKind.empty⟩, s')
      | _ => (ParseResult.peekErr ⟨position, ErrKind.empty⟩, s')
  | (ParseResult.peekErr e, s') => (ParseResult.peekErr e, s')
  | (ParseResult.commitErr e, s') => (ParseResult.commitErr e, s')

/-- The `Literal::parse_lazy` (src/parser.rs). -/
def literalParseLazy (s : Input) : ParseResult String × Input :=
  let position := Input.position s
  match streamUncons s with
  | (ParseResult.peekOk tok, s') | (ParseResult.commitOk tok, s') =>
      match tok with
      | Token.literal text => (ParseResult.commitOk text, s')
      | _ => (ParseResult.peekErr ⟨position, ErrKind.empty⟩, s')
  | (ParseResult.peekErr e, s') => (ParseResult.peekErr e, s')
  | (ParseResult.commitErr e, s') => (ParseResult.commitErr e, s')

/-- The `Punct::parse_lazy` (src/parser.rs): accepts a `Punct` whose char is `c`. -/
def punctParseLazy (c : Char) (s : Input) : ParseResult Token × Input :=
  let position := Input.position s
  match streamUncons s with
  | (ParseResult.peekOk tok, s') | (ParseResult.commitOk tok, s') =>
      match tok with
      | Token.punct ch =>
          if ch = c then (ParseResult.commitOk (Token.punct ch), s')
          else (ParseResult.peekErr ⟨position, ErrKind.empty⟩, s')
      | _ => (ParseResult.peekErr ⟨position, ErrKind.empty⟩, s')
  | (ParseResult.peekErr e, s') => (ParseResult.peekErr e, s')
  | (ParseResult.commitErr e, s') => (ParseResult.commitErr e, s')

/-- The `Delim::parse_lazy` (src/parser.rs): accepts a `Delim` whose char is `c`. -/
def delimParseLazy (c : Char) (s : Input) : ParseResult Token × Input :=
  let position := Input.position s
  match streamUncons s with
  | (ParseResult.peekOk tok, s') | (ParseResult.commitOk tok, s') =>
      match tok with
      | Token.delim ch =>
          if ch = c then (ParseResult.commitOk (Token.delim ch), s')
          else (ParseResult.peekErr ⟨position, ErrKind.empty⟩, s')
      | _ => (ParseResult.peekErr ⟨position, ErrKind.empty⟩, s')
  | (ParseResult.peekErr e, s') => (ParseResult.peekErr e, s')
  | (ParseResult.commitErr e, s') => (ParseResult.commitErr e, s')

/-- Modelled from the spec: the enclosing combinator engine (the `combine` crate, which
is outside this repository) takes a checkpoint of the stream before running a parser's
`parse_lazy` and resets the stream to that checkpoint whenever the result is `PeekErr`,
so that "combinators above them may try an alternative at the same position"
(`Parser::parse_stream`; the checkpoint of `Input` is a full clone). -/
def runParser {α : Type} (p : Input → ParseResult α × Input) (s : Input) :
    ParseResult α × Input :=
  match p s with
  | (ParseResult.peekErr e, _) => (ParseResult.peekErr e, Input.checkpoint s)
  | (ParseResult.peekOk a, s') => (ParseResult.peekOk a, s')
  | (ParseResult.commitOk a, s') => (ParseResult.commitOk a, s')
  | (ParseResult.commitErr e, s') => (ParseResult.commitErr e, s')

/-- A parser is non-consuming on failure: whenever the run (through the engine's
reset-on-`PeekErr` wrapper) fails, the stream is returned exactly as it was. -/
def nonConsumingOnFailure {α : Type} (p : Input → ParseResult α × Input) : Prop :=
  ∀ s : Input, ((runParser p s).1.isErr = true → (runParser p s).2 = s)

/-- A parser consumes exactly one token on success: the position advances by one and
the remaining token sequence loses exactly its head. -/
def consumesOneOnSuccess {α : Type} (p : Input → ParseResult α × Input) : Prop :=
  ∀ s : Input, ((runParser p s).1.isErr = false →
    (runParser p s).2.source_pos = s.source_pos + 1 ∧
    ∃ tok, remaining s = tok :: remaining (runParser p s).2)

/-- Rust `str::contains(char)`: whether the char occurs in the string. -/
def rustStrContains (s : String) (c : Char) : Bool :=
  s.data.contains c

/-- The `delim` matcher constructor (src/parser.rs):
`debug_assert!("()[]{}".contains(c), ...)` panics only in builds with debug assertions
enabled; the build flag is explicit here and `none` stands for the construction-time
panic. -/
def delimConstruct (debugAssertions : Bool) (c : Char) : Option Char :=
  if debugAssertions && !(rustStrContains "()[]\x7b\x7d" c) then Option.none
  else Option.some c

/-! ## The incomplete-input diagnostic (src/diagnostic.rs) -/

/-- The `DEFAULT_MAX_TRAILING` (src/diagnostic.rs). -/
def DEFAULT_MAX_TRAILING : Nat := 50

/-- The `Incomplete` (src/diagnostic.rs). -/
structure Incomplete where
  trailing : List TokenTree
  max_trailing : Nat

/-- A successful `Input::uncons` strictly shrinks the stack measure. -/
def unconsOkDecreases :
    ∀ (s : Input) tok s', Input.uncons s = (Except.ok tok, s') →
      stackMeasure s'.source_stack < stackMeasure s.source_stack := by
  intro s tok s' h
  rcases hn : nextAux s.source_stack with ⟨o, st'⟩
  cases o with
  | none =>
      simp only [Input.uncons, Input.next, hn] at h
      simp at h
  | some tk =>
      simp only [Input.uncons, Input.next, hn] at h
      injection h with h1 h2
      subst h2
      exact nextAuxDecreases s.source_stack tk st' hn

/-- The drain loop of `Incomplete::from_stream` (src/diagnostic.rs):
`while let Ok(tok) = input.uncons()`, extending `trailing` with the tree form of each
drained token (a `Delim` contributes nothing) and breaking as soon as more than
`DEFAULT_MAX_TRAILING` trees have been collected. -/
def fromStreamAux (s : Input) (trailing : List TokenTree) : List TokenTree :=
  match h : Input.uncons s with
  | (Except.error _, _) => trailing
  | (Except.ok tok, s') =>
      let trailing' := trailing ++ (Token.toTree tok).toList
      if trailing'.length > DEFAULT_MAX_TRAILING then trailing'
      else fromStreamAux s' trailing'
termination_by stackMeasure s.source_stack
decreasing_by exact unconsOkDecreases s tok s' h

/-- The `Incomplete::from_stream` (src/diagnostic.rs). -/
def Incomplete.from_stream (s : Input) : Option Incomplete :=
  let trailing := fromStreamAux s []
  if trailing.length > 0 then
    Option.some ⟨trailing, DEFAULT_MAX_TRAILING⟩
  else
    Option.none

mutual
/-- Modelled from the spec: the host printer (`proc_macro2`'s `Display`, outside this
repository) renders a token stream as the space-separated concatenation of the surface
forms of its trees ("space/structure-preserving concatenation"). -/
def renderTree : TokenTree → String
  | .punct c => String.singleton c
  | .ident text => text
  | .literal text => text
  | .group d children =>
      match (delimChars d).1, (delimChars d).2 with
      | Option.some o, Option.some c =>
          String.singleton o ++ " " ++ renderTrees children ++ " " ++ String.singleton c
      | _, _ => renderTrees children

/-- Space-separated rendering of a list of trees (every tree followed by a space). -/
def renderTrees : List TokenTree → String
  | [] => ""
  | t :: ts => renderTree t ++ " " ++ renderTrees ts
end

/-- The `impl Display for Incomplete` (src/diagnostic.rs): renders the first
`max_trailing` collected trees, with the `" [and N more ...]"` suffix when more were
collected. -/
def Incomplete.display (inc : Incomplete) : String :=
  let total := inc.trailing.length
  let stream := inc.trailing.take inc.max_trailing
  if total > inc.max_trailing then
    renderTrees stream ++ " [and " ++ toString (total - inc.max_trailing) ++ " more ...]"
  else
    renderTrees stream

/-- The `s` ends with `suffix` (the spec's "the rendered message ends with ..."). -/
def strEndsWith (s suffix : String) : Prop :=
  ∃ pre : String, s = pre ++ suffix

/-! ## Spec-side definitions used to state the claims -/

mutual
/-- The flattening described by the spec (section 4.1): a group with surface
delimiters contributes an open `Delim`, then its flattened children, then the matching
close `Delim`; a `Delimiter::None` group contributes its flattened children inline and
no `Delim` tokens.  Written from the spec's words, to be compared with the stream the
code produces. -/
def specFlatten : TokenTree → List Token
  | .punct c => [Token.punct c]
  | .ident text => [Token.ident text]
  | .literal text => [Token.literal text]
  | .group d children =>
      match (delimChars d).1, (delimChars d).2 with
      | Option.some o, Option.some c =>
          Token.delim o :: (specFlattenList children ++ [Token.delim c])
      | _, _ => specFlattenList children

/-- The `specFlatten` over a list of trees. -/
def specFlattenList : List TokenTree → List Token
  | [] => []
  | t :: ts => specFlatten t ++ specFlattenList ts
end

/-- A tree with no groups. -/
def TokenTree.isLeaf : TokenTree → Bool
  | .group _ _ => false
  | _ => true

/-- A leaf-only token tree (list of leaf trees). -/
def leafOnly (ts : List TokenTree) : Bool :=
  ts.all TokenTree.isLeaf

/-! ## Characterisation lemmas -/

/-- When the flattening loop reports end of stream, it has popped every frame. -/
theorem nextAux_none_nil :
    ∀ stack st', nextAux stack = (Option.none, st') → st' = [] := by
  intro stack
  induction stack with
  | nil =>
      intro st' h
      rw [nextAux] at h
      injection h with h1 h2
      exact h2.symm
  | cons frame rest ih =>
      obtain ⟨trees, close⟩ := frame
      induction trees with
      | nil =>
          intro st' h
          cases close with
          | none =>
              rw [nextAux] at h
              exact ih st' h
          | some tk =>
              rw [nextAux] at h
              injection h with h1 h2
              exact Option.noConfusion h1
      | cons tt ts ihts =>
          intro st' h
          cases tt with
          | punct c =>
              rw [nextAux] at h
              injection h with h1 h2
              exact Option.noConfusion h1
          | ident text =>
              rw [nextAux] at h
              injection h with h1 h2
              exact Option.noConfusion h1
          | literal text =>
              rw [nextAux] at h
              injection h with h1 h2
              exact Option.noConfusion h1
          | group d children =>
              rw [nextAux] at h
              cases d with
              | none =>
                  simp only [delimChars, Option.map_none] at h
                  exact ihts st' h
              | parenthesis =>
                  simp only [delimChars] at h
                  injection h with h1 h2
                  exact Option.noConfusion h1
              | brace =>
                  simp only [delimChars] at h
                  injection h with h1 h2
                  exact Option.noConfusion h1
              | bracket =>
                  simp only [delimChars] at h
                  injection h with h1 h2
                  exact Option.noConfusion h1

/-- The `drain` on an exhausted stack. -/
theorem drain_none {stack st' : List Frame}
    (h : nextAux stack = (Option.none, st')) : drain stack = [] := by
  unfold drain
  split
  · rfl
  · next tok st2 heq =>
      rw [h] at heq
      exact absurd heq (by simp)

/-- The `drain` after a produced token. -/
theorem drain_some {stack : List Frame} {tok : Token} {st' : List Frame}
    (h : nextAux stack = (Option.some tok, st')) :
    drain stack = tok :: drain st' := by
  unfold drain
  split
  · next st2 heq =>
      rw [h] at heq
      exact absurd heq (by simp)
  · next tok2 st2 heq =>
      rw [h] at heq
      injection heq with h1 h2
      injection h1 with h1
      subst h1 h2
      rw [drain]

/-- A successful `uncons` is a successful `nextAux` step plus the position bump. -/
theorem uncons_ok_parts {s : Input} {tok : Token} {s' : Input}
    (h : Input.uncons s = (Except.ok tok, s')) :
    nextAux s.source_stack = (Option.some tok, s'.source_stack) ∧
    s'.source_pos = s.source_pos + 1 := by
  rcases hn : nextAux s.source_stack with ⟨o, st'⟩
  cases o with
  | none =>
      simp only [Input.uncons, Input.next, hn] at h
      simp at h
  | some tk =>
      simp only [Input.uncons, Input.next, hn] at h
      injection h with h1 h2
      injection h1 with h1
      subst h1
      subst h2
      exact ⟨rfl, rfl⟩


/-- A successful `uncons` removes exactly the head of the remaining sequence. -/
theorem uncons_ok_remaining {s : Input} {tok : Token} {s' : Input}
    (h : Input.uncons s = (Except.ok tok, s')) :
    remaining s = tok :: remaining s' := by
  have hp := uncons_ok_parts h
  simp only [remaining]
  rw [drain_some hp.1]

/-- A failed `uncons` reports end of input, does not bump the position, leaves an empty
frame stack, and the stream had no remaining tokens. -/
theorem uncons_err_parts {s : Input} {e : StreamError} {s' : Input}
    (h : Input.uncons s = (Except.error e, s')) :
    e = StreamError.end_of_input ∧ s'.source_pos = s.source_pos ∧
    s'.source_stack = [] ∧ remaining s = [] := by
  rcases hn : nextAux s.source_stack with ⟨o, st'⟩
  cases o with
  | some tk =>
      simp only [Input.uncons, Input.next, hn] at h
      simp at h
  | none =>
      simp only [Input.uncons, Input.next, hn] at h
      injection h with h1 h2
      injection h1 with h1
      subst h2
      exact ⟨h1.symm, rfl, nextAux_none_nil _ _ hn, drain_none hn⟩

/-! ## Claim theorems -/

/-- Claim C7: `checkpoint()` immediately followed by `reset` restores the exact
pre-checkpoint state (content and position: the whole `Input` value), and `reset` is a
total replacement of the current state by the snapshot, always returning `Ok(())`. -/
theorem checkpoint_reset_roundtrip : ∀ s t cp : Input,
    (Input.reset s (Input.checkpoint s)).2 = s ∧
    (Input.reset t cp).2 = cp ∧
    (Input.reset t cp).1 = Except.ok () := by
  intro s t cp
  exact ⟨rfl, rfl, rfl⟩

/-- Claim C4 (code bug): on an `Input` freshly constructed from an empty token stream,
`is_empty()` returns `false` although no token can be produced — `uncons` reports end
of input and the remaining token sequence is empty — contradicting the doc comment
"Returns `true` if the input contains no more tokens" (src/input.rs). -/
theorem is_empty_fresh_empty_bug :
    Input.is_empty (Input.fromStream []) = false ∧
    (Input.uncons (Input.fromStream [])).1 = Except.error StreamError.end_of_input ∧
    remaining (Input.fromStream []) = [] := by
  refine ⟨rfl, ?_, ?_⟩
  · simp [Input.uncons, Input.next, Input.fromStream, nextAux]
  · have hn : nextAux [(([] : List TokenTree), (Option.none : Option Token))]
        = (Option.none, []) := by
      simp [nextAux]
    simp only [remaining, Input.fromStream]
    exact drain_none hn

/-- Claim C10 counterexample: on the exhausted fresh-from-empty `Input`, `uncons` returns
the end-of-input error but does *not* leave the whole state unchanged: the (non-empty)
frame stack is popped to empty. -/
theorem uncons_exhausted_state_changed :
    (Input.uncons (Input.fromStream [])).1 = Except.error StreamError.end_of_input ∧
    (Input.uncons (Input.fromStream [])).2 ≠ Input.fromStream [] := by
  constructor
  · simp [Input.uncons, Input.next, Input.fromStream, nextAux]
  · intro h
    have hs : (Input.uncons (Input.fromStream [])).2.source_stack = [] := by
      simp [Input.uncons, Input.next, Input.fromStream, nextAux]
    rw [h] at hs
    simp [Input.fromStream] at hs

/-- Claim C10 amended: each successful `uncons` increments the position by exactly 1; a
failed `uncons` reports end of input, leaves the position and the remaining content
unchanged, and repeated calls keep returning the same end-of-input error — but the
frame stack itself may shrink (exhausted close-less frames are popped), so the full
state is not necessarily unchanged. -/
theorem uncons_position_discipline : ∀ s : Input,
    (∀ tok s', Input.uncons s = (Except.ok tok, s') →
      s'.source_pos = s.source_pos + 1 ∧ remaining s = tok :: remaining s') ∧
    (∀ e s', Input.uncons s = (Except.error e, s') →
      e = StreamError.end_of_input ∧ s'.source_pos = s.source_pos ∧
      remaining s' = remaining s ∧
      (Input.uncons s').1 = Except.error StreamError.end_of_input) := by
  intro s
  constructor
  · intro tok s' h
    exact ⟨(uncons_ok_parts h).2, uncons_ok_remaining h⟩
  · intro e s' h
    obtain ⟨he, hpos, hstack, hrem⟩ := uncons_err_parts h
    have hrem' : remaining s' = [] := by
      simp only [remaining, hstack]
      exact drain_none (by rw [nextAux])
    refine ⟨he, hpos, by rw [hrem', hrem], ?_⟩
    simp [Input.uncons, Input.next, hstack, nextAux]

/-- C10 witness: the amended facts at the concrete exhausted input. -/
theorem uncons_position_discipline_witness :
    remaining ((Input.uncons (Input.fromStream [])).2)
      = remaining (Input.fromStream []) ∧
    (Input.uncons ((Input.uncons (Input.fromStream [])).2)).1
      = Except.error StreamError.end_of_input := by
  have hu : Input.uncons (Input.fromStream [])
      = (Except.error StreamError.end_of_input, ⟨[], 0⟩) := by
    simp [Input.uncons, Input.next, Input.fromStream, nextAux]
  have h := (uncons_position_discipline (Input.fromStream [])).2
    StreamError.end_of_input ⟨[], 0⟩ hu
  rw [hu]
  exact ⟨h.2.2.1, h.2.2.2⟩

/-- Claim C5 (code bug): the children of a `Delimiter::None` group are silently
discarded by the flattening loop (the frame pushed for them is popped before its
iterator is consumed), instead of being emitted inline as the spec describes: from the
tree `Ø-group[ident "a"]` the code produces no tokens at all, while the spec-side
flattening produces `[ident "a"]`. -/
theorem none_group_children_dropped :
    remaining (Input.fromStream
      [TokenTree.group Delimiter.none [TokenTree.ident "a"]]) = [] ∧
    specFlattenList [TokenTree.group Delimiter.none [TokenTree.ident "a"]]
      = [Token.ident "a"] := by
  constructor
  · have hn : nextAux
        [([TokenTree.group Delimiter.none [TokenTree.ident "a"]], Option.none)]
        = (Option.none, []) := by
      simp [nextAux, delimChars]
    simp only [remaining, Input.fromStream]
    exact drain_none hn
  · simp [specFlattenList, specFlatten, delimChars]

/-- Claim C3 counterexample: with debug assertions disabled (a release build) the claim
"construction panics iff the char is not a legal delimiter" fails at the invalid char
`x`: construction succeeds. -/
theorem delim_construct_counterexample :
    ¬ (delimConstruct false 'x' = Option.none ↔
        (rustStrContains "()[]\x7b\x7d" 'x') = false) := by
  decide

/-- Claim C3 amended: constructing `delim(c)` panics at construction time iff debug
assertions are enabled *and* `c` is not one of the six delimiter characters; in a
build without debug assertions no check happens at all. -/
theorem delim_construct_debug_only : ∀ (debugAssertions : Bool) (c : Char),
    delimConstruct debugAssertions c = Option.none ↔
      (debugAssertions = true ∧ (rustStrContains "()[]\x7b\x7d" c) = false) := by
  intro b c
  cases b <;> simp [delimConstruct]

/-- C3 witness: in a debug build the invalid char `x` panics at construction. -/
theorem delim_construct_debug_only_witness :
    delimConstruct true 'x' = Option.none :=
  (delim_construct_debug_only true 'x').mpr ⟨rfl, by decide⟩

/-- Conversion of a frame stack back to a stream: succeeds with the flat concatenation
of the frames' remaining children (innermost first) when no frame has a pending close
token, and panics (`none`) as soon as some frame carries a pending close `Delim`. -/
theorem framesToTrees_characterised : ∀ stack : List Frame,
    ((∀ f ∈ stack, f.2 = Option.none) →
      framesToTrees stack
        = Option.some (stack.foldr (fun f acc => f.1 ++ acc) [])) ∧
    ((∃ f ∈ stack, ∃ c, f.2 = Option.some (Token.delim c)) →
      framesToTrees stack = Option.none) := by
  intro stack
  induction stack with
  | nil =>
      constructor
      · intro _
        rfl
      · rintro ⟨f, hf, _⟩
        exact absurd hf (by simp)
  | cons frame rest ih =>
      obtain ⟨src, close⟩ := frame
      constructor
      · intro h
        have hclose : close = Option.none := h (src, close) (by simp)
        have hrest := ih.1 (fun f hf => h f (by simp [hf]))
        subst hclose
        simp [framesToTrees, closeTrees, hrest]
      · rintro ⟨f, hf, c, hc⟩
        rcases List.mem_cons.mp hf with hhead | htail
        · subst hhead
          simp only at hc
          subst hc
          simp [framesToTrees, closeTrees, Token.toTree]
        · have hrest := ih.2 ⟨f, htail, c, hc⟩
          cases hcl : closeTrees close <;> simp [framesToTrees, hrest, hcl]

/-- Claim C6 counterexample: converting an `Input` that has been consumed one token into
a parenthesised group (so the open frame carries the pending close `Delim ')'`) back to
a token stream panics (the `unwrap` in `From<Input> for TokenStream` receives
`Err(())`), instead of succeeding as the claim states. -/
theorem into_stream_open_frame_panics :
    (Input.uncons (Input.fromStream
        [TokenTree.group Delimiter.parenthesis [TokenTree.ident "a"]])).2
      = ⟨[([TokenTree.ident "a"], Option.some (Token.delim ')')),
          ([], Option.none)], 1⟩ ∧
    Input.intoTokenStream
      ⟨[([TokenTree.ident "a"], Option.some (Token.delim ')')),
        ([], Option.none)], 1⟩ = Option.none := by
  constructor
  · simp [Input.uncons, Input.next, Input.fromStream, nextAux, delimChars]
  · rfl

/-- Claim C6 amended: the conversion concatenates, innermost frame first, each frame's
remaining children into one flat stream (no re-nesting), and succeeds exactly when no
still-open frame carries a pending close token; whenever some open frame holds a
pending close `Delim`, the conversion panics instead of succeeding. -/
theorem into_stream_amended : ∀ s : Input,
    ((∀ f ∈ s.source_stack, f.2 = Option.none) →
      Input.intoTokenStream s
        = Option.some (s.source_stack.foldr (fun f acc => f.1 ++ acc) [])) ∧
    ((∃ f ∈ s.source_stack, ∃ c, f.2 = Option.some (Token.delim c)) →
      Input.intoTokenStream s = Option.none) := by
  intro s
  exact framesToTrees_characterised s.source_stack

/-- C6 witness: the amended behaviour at concrete inputs — a close-less stack converts
to its flat children, a stack with a pending close `Delim` panics. -/
theorem into_stream_amended_witness :
    Input.intoTokenStream (Input.fromStream [TokenTree.ident "a"])
      = Option.some [TokenTree.ident "a"] ∧
    Input.intoTokenStream
      ⟨[([TokenTree.ident "a"], Option.some (Token.delim ')')),
        ([], Option.none)], 1⟩ = Option.none := by
  constructor
  · have h := (into_stream_amended (Input.fromStream [TokenTree.ident "a"])).1
      (by
        intro f hf
        simp only [Input.fromStream] at hf
        simp at hf
        rw [hf])
    simpa [Input.fromStream] using h
  · exact (into_stream_amended
      ⟨[([TokenTree.ident "a"], Option.some (Token.delim ')')),
        ([], Option.none)], 1⟩).2
      ⟨([TokenTree.ident "a"], Option.some (Token.delim ')')), by simp, ')', rfl⟩

/-- Claim C8: for a leaf-only token tree, flattening and immediately reconstructing with
zero tokens consumed returns exactly the original tree list; in particular the printed
forms agree. -/
theorem leaf_roundtrip : ∀ ts : List TokenTree, leafOnly ts = true →
    Input.intoTokenStream (Input.fromStream ts) = Option.some ts ∧
    (Input.intoTokenStream (Input.fromStream ts)).map renderTrees
      = Option.some (renderTrees ts) := by
  intro ts h
  have h1 : Input.intoTokenStream (Input.fromStream ts) = Option.some ts := by
    simp [Input.intoTokenStream, Input.fromStream, framesToTrees, closeTrees]
  exact ⟨h1, by rw [h1]; rfl⟩

/-- C8 witness: the round trip at a concrete leaf-only tree. -/
theorem leaf_roundtrip_witness :
    leafOnly [TokenTree.ident "a", TokenTree.punct '+'] = true ∧
    Input.intoTokenStream
        (Input.fromStream [TokenTree.ident "a", TokenTree.punct '+'])
      = Option.some [TokenTree.ident "a", TokenTree.punct '+'] :=
  ⟨rfl, (leaf_roundtrip [TokenTree.ident "a", TokenTree.punct '+'] rfl).1⟩

/-- The shared shape of the five `parse_lazy` implementations (Rust's `satisfy_impl`
pattern): one `uncons`, then a pure test of the produced token. -/
def satisfyShape {α : Type} (test : Token → Option α) (s : Input) :
    ParseResult α × Input :=
  match streamUncons s with
  | (ParseResult.peekOk tok, s') | (ParseResult.commitOk tok, s') =>
      ((match test tok with
        | Option.some a => ParseResult.commitOk a
        | Option.none => ParseResult.peekErr ⟨Input.position s, ErrKind.empty⟩), s')
  | (ParseResult.peekErr e, s') => (ParseResult.peekErr e, s')
  | (ParseResult.commitErr e, s') => (ParseResult.commitErr e, s')

/-- Any parser of the `satisfyShape` form is non-consuming on failure and consumes
exactly one token on success. -/
theorem satisfyShape_contract {α : Type} (p : Input → ParseResult α × Input)
    (test : Token → Option α) (hp : ∀ s : Input, p s = satisfyShape test s) :
    nonConsumingOnFailure p ∧ consumesOneOnSuccess p := by
  have key : ∀ s : Input,
      ((runParser p s).1.isErr = true → (runParser p s).2 = s) ∧
      ((runParser p s).1.isErr = false →
        (runParser p s).2.source_pos = s.source_pos + 1 ∧
        ∃ tok, remaining s = tok :: remaining (runParser p s).2) := by
    intro s
    have hps := hp s
    rcases hu : Input.uncons s with ⟨r, s2⟩
    cases r with
    | error e =>
        have hsu : streamUncons s
            = (ParseResult.peekErr ⟨Input.position s2, ErrKind.end_of_input_err⟩, s2) := by
          simp only [streamUncons, hu]
        rw [satisfyShape, hsu] at hps
        have hrun : runParser p s
            = (ParseResult.peekErr ⟨Input.position s2, ErrKind.end_of_input_err⟩, s) := by
          simp only [runParser, hps, Input.checkpoint]
        rw [hrun]
        constructor
        · intro _
          rfl
        · intro hfalse
          simp [ParseResult.isErr] at hfalse
    | ok tok =>
        have hsu : streamUncons s = (ParseResult.commitOk tok, s2) := by
          simp only [streamUncons, hu]
        rw [satisfyShape, hsu] at hps
        cases ht : test tok with
        | none =>
            simp only [ht] at hps
            have hrun : runParser p s
                = (ParseResult.peekErr ⟨Input.position s, ErrKind.empty⟩, s) := by
              simp only [runParser, hps, Input.checkpoint]
            rw [hrun]
            constructor
            · intro _
              rfl
            · intro hfalse
              simp [ParseResult.isErr] at hfalse
        | some a =>
            simp only [ht] at hps
            have hrun : runParser p s = (ParseResult.commitOk a, s2) := by
              simp only [runParser, hps]
            rw [hrun]
            constructor
            · intro htrue
              simp [ParseResult.isErr] at htrue
            · intro _
              exact ⟨(uncons_ok_parts hu).2, tok, uncons_ok_remaining hu⟩
  exact ⟨fun s => (key s).1, fun s => (key s).2⟩

/-- The `Ident::parse_lazy` is of the `satisfyShape` form. -/
theorem identParseLazy_shape : ∀ s : Input,
    identParseLazy s = satisfyShape
      (fun tok => match tok with
        | Token.ident text => Option.some text
        | _ => Option.none) s := by
  intro s
  rw [identParseLazy, satisfyShape]
  rcases streamUncons s with ⟨r, s'⟩
  cases r with
  | peekOk tok => cases tok <;> rfl
  | commitOk tok => cases tok <;> rfl
  | peekErr e => rfl
  | commitErr e => rfl

/-- The `Keyword::parse_lazy` is of the `satisfyShape` form. -/
theorem keywordParseLazy_shape : ∀ (word : String) (s : Input),
    keywordParseLazy word s = satisfyShape
      (fun tok => match tok with
        | Token.ident text =>
            if text = word then Option.some (Token.ident text) else Option.none
        | _ => Option.none) s := by
  intro word s
  rw [keywordParseLazy, satisfyShape]
  rcases streamUncons s with ⟨r, s'⟩
  cases r with
  | peekOk tok =>
      cases tok <;> first
        | rfl
        | (next text => by_cases h : text = word <;> simp [h])
  | commitOk tok =>
      cases tok <;> first
        | rfl
        | (next text => by_cases h : text = word <;> simp [h])
  | peekErr e => rfl
  | commitErr e => rfl

/-- The `Literal::parse_lazy` is of the `satisfyShape` form. -/
theorem literalParseLazy_shape : ∀ s : Input,
    literalParseLazy s = satisfyShape
      (fun tok => match tok with
        | Token.literal text => Option.some text
        | _ => Option.none) s := by
  intro s
  rw [literalParseLazy, satisfyShape]
  rcases streamUncons s with ⟨r, s'⟩
  cases r with
  | peekOk tok => cases tok <;> rfl
  | commitOk tok => cases tok <;> rfl
  | peekErr e => rfl
  | commitErr e => rfl

/-- The `Punct::parse_lazy` is of the `satisfyShape` form. -/
theorem punctParseLazy_shape : ∀ (c : Char) (s : Input),
    punctParseLazy c s = satisfyShape
      (fun tok => match tok with
        | Token.punct ch =>
            if ch = c then Option.some (Token.punct ch) else Option.none
        | _ => Option.none) s := by
  intro c s
  rw [punctParseLazy, satisfyShape]
  rcases streamUncons s with ⟨r, s'⟩
  cases r with
  | peekOk tok =>
      cases tok <;> first
        | rfl
        | (next ch => by_cases h : ch = c <;> simp [h])
  | commitOk tok =>
      cases tok <;> first
        | rfl
        | (next ch => by_cases h : ch = c <;> simp [h])
  | peekErr e => rfl
  | commitErr e => rfl

/-- The `Delim::parse_lazy` is of the `satisfyShape` form. -/
theorem delimParseLazy_shape : ∀ (c : Char) (s : Input),
    delimParseLazy c s = satisfyShape
      (fun tok => match tok with
        | Token.delim ch =>
            if ch = c then Option.some (Token.delim ch) else Option.none
        | _ => Option.none) s := by
  intro c s
  rw [delimParseLazy, satisfyShape]
  rcases streamUncons s with ⟨r, s'⟩
  cases r with
  | peekOk tok =>
      cases tok <;> first
        | rfl
        | (next ch => by_cases h : ch = c <;> simp [h])
  | commitOk tok =>
      cases tok <;> first
        | rfl
        | (next ch => by_cases h : ch = c <;> simp [h])
  | peekErr e => rfl
  | commitErr e => rfl

/-- Claim C1: each of the five token matchers (`ident`, `keyword(word)`, `literal`,
`punct(c)`, `delim(c)`), run through the engine's reset-on-`PeekErr` wrapper, leaves a
failing stream observably unchanged (same position and same remaining token sequence:
the exact same `Input` value) and consumes exactly one token on success (position
advances by one, the remaining sequence loses exactly its head). -/
theorem matchers_one_token_contract :
    (nonConsumingOnFailure identParseLazy ∧ consumesOneOnSuccess identParseLazy) ∧
    (∀ word : String, nonConsumingOnFailure (keywordParseLazy word) ∧
      consumesOneOnSuccess (keywordParseLazy word)) ∧
    (nonConsumingOnFailure literalParseLazy ∧ consumesOneOnSuccess literalParseLazy) ∧
    (∀ c : Char, nonConsumingOnFailure (punctParseLazy c) ∧
      consumesOneOnSuccess (punctParseLazy c)) ∧
    (∀ c : Char, nonConsumingOnFailure (delimParseLazy c) ∧
      consumesOneOnSuccess (delimParseLazy c)) :=
  ⟨satisfyShape_contract _ _ identParseLazy_shape,
   fun word => satisfyShape_contract _ _ (keywordParseLazy_shape word),
   satisfyShape_contract _ _ literalParseLazy_shape,
   fun c => satisfyShape_contract _ _ (punctParseLazy_shape c),
   fun c => satisfyShape_contract _ _ (delimParseLazy_shape c)⟩

/-- C1 witness: on the concrete stream `[+]` the `ident` matcher fails and returns the
stream unchanged, while the `punct('+')` matcher succeeds and advances the position by
one. -/
theorem matchers_one_token_contract_witness :
    (runParser identParseLazy (Input.fromStream [TokenTree.punct '+'])).2
      = Input.fromStream [TokenTree.punct '+'] ∧
    (runParser (punctParseLazy '+') (Input.fromStream [TokenTree.punct '+'])).2.source_pos
      = (Input.fromStream [TokenTree.punct '+']).source_pos + 1 := by
  constructor
  · exact matchers_one_token_contract.1.1 (Input.fromStream [TokenTree.punct '+'])
      (by simp [runParser, identParseLazy, streamUncons, Input.uncons, Input.next,
            Input.fromStream, nextAux, ParseResult.isErr])
  · exact ((matchers_one_token_contract.2.2.2.1 '+').2
      (Input.fromStream [TokenTree.punct '+'])
      (by simp [runParser, punctParseLazy, streamUncons, Input.uncons, Input.next,
            Input.fromStream, nextAux, ParseResult.isErr])).1

/-- The `fromStreamAux` stops as soon as `uncons` fails. -/
theorem fromStreamAux_err {s : Input} {t : List TokenTree}
    (h : (Input.uncons s).1 = Except.error StreamError.end_of_input) :
    fromStreamAux s t = t := by
  unfold fromStreamAux
  split
  · rfl
  · next tok s' heq =>
      rw [heq] at h
      simp at h

/-- One step of `fromStreamAux` after a successful `uncons`. -/
theorem fromStreamAux_ok {s : Input} {tok : Token} {s' : Input} {t : List TokenTree}
    (h : Input.uncons s = (Except.ok tok, s')) :
    fromStreamAux s t =
      if (t ++ (Token.toTree tok).toList).length > DEFAULT_MAX_TRAILING
      then t ++ (Token.toTree tok).toList
      else fromStreamAux s' (t ++ (Token.toTree tok).toList) := by
  conv_lhs => unfold fromStreamAux
  split
  · next e s2 heq =>
      rw [h] at heq
      simp at heq
  · next tok2 s2 heq =>
      rw [h] at heq
      injection heq with h1 h2
      injection h1 with h1
      subst h1
      subst h2
      dsimp only

/-- The drain loop never collects more than `DEFAULT_MAX_TRAILING + 1` trees. -/
theorem fromStreamAux_len :
    ∀ (n : Nat) (s : Input) (t : List TokenTree),
      stackMeasure s.source_stack ≤ n → t.length ≤ 50 →
      (fromStreamAux s t).length ≤ 51 := by
  intro n
  induction n with
  | zero =>
      intro s t hm ht
      have hstack : s.source_stack = [] := by
        cases hs : s.source_stack with
        | nil => rfl
        | cons f rest =>
            rw [hs] at hm
            simp [stackMeasure] at hm
      have herr : (Input.uncons s).1 = Except.error StreamError.end_of_input := by
        simp [Input.uncons, Input.next, hstack, nextAux]
      rw [fromStreamAux_err herr]
      omega
  | succ n ih =>
      intro s t hm ht
      rcases hu : Input.uncons s with ⟨r, s'⟩
      cases r with
      | error e =>
          have he := (uncons_err_parts hu).1
          subst he
          rw [fromStreamAux_err (by rw [hu])]
          omega
      | ok tok =>
          rw [fromStreamAux_ok hu]
          have hlen : (t ++ (Token.toTree tok).toList).length ≤ t.length + 1 := by
            cases tok <;> simp [Token.toTree, Option.toList]
          simp only [DEFAULT_MAX_TRAILING]
          split
          · omega
          · next hgt =>
              refine ih s' (t ++ (Token.toTree tok).toList) ?_ ?_
              · have := unconsOkDecreases s tok s' hu
                omega
              · omega

/-- One `uncons` step on a single close-less frame of `+` puncts. -/
theorem uncons_punct_replicate (n pos : Nat) :
    Input.uncons ⟨[(List.replicate (n + 1) (TokenTree.punct '+'), Option.none)], pos⟩
      = (Except.ok (Token.punct '+'),
         ⟨[(List.replicate n (TokenTree.punct '+'), Option.none)], pos + 1⟩) := by
  simp [Input.uncons, Input.next, List.replicate_succ, nextAux]

/-- The `uncons` on a single exhausted close-less frame. -/
theorem uncons_empty_frame (pos : Nat) :
    Input.uncons ⟨[(([] : List TokenTree), (Option.none : Option Token))], pos⟩
      = (Except.error StreamError.end_of_input, ⟨[], pos⟩) := by
  simp [Input.uncons, Input.next, nextAux]

/-- Closed form of the drain loop over a stream of `n` puncts: it collects until the
stream ends or `51` trees are reached, whichever comes first. -/
theorem fromStreamAux_punct_replicate :
    ∀ (n pos : Nat) (t : List TokenTree), t.length ≤ 50 →
      fromStreamAux ⟨[(List.replicate n (TokenTree.punct '+'), Option.none)], pos⟩ t
        = t ++ List.replicate (min n (51 - t.length)) (TokenTree.punct '+') := by
  intro n
  induction n with
  | zero =>
      intro pos t ht
      rw [List.replicate_zero]
      rw [fromStreamAux_err (by rw [uncons_empty_frame pos])]
      simp
  | succ n ih =>
      intro pos t ht
      rw [fromStreamAux_ok (uncons_punct_replicate n pos)]
      simp only [Token.toTree, Option.toList, DEFAULT_MAX_TRAILING,
        List.length_append, List.length_cons, List.length_nil]
      by_cases hlen : t.length = 50
      · rw [if_pos (by omega)]
        have hmin : min (n + 1) (51 - t.length) = 1 := by omega
        rw [hmin]
        simp
      · rw [if_neg (by omega)]
        rw [ih (pos + 1) (t ++ [TokenTree.punct '+']) (by simp; omega)]
        have h1 : 51 - (t ++ [TokenTree.punct '+']).length = 50 - t.length := by
          simp only [List.length_append, List.length_cons, List.length_nil]
          omega
        have h2 : min (n + 1) (51 - t.length) = min n (50 - t.length) + 1 := by
          omega
        rw [h1, h2, List.replicate_succ]
        simp

/-- The `Incomplete::from_stream` over 52 trailing puncts: only 51 are collected. -/
theorem from_stream_52 :
    Incomplete.from_stream (Input.fromStream (List.replicate 52 (TokenTree.punct '+')))
      = Option.some ⟨List.replicate 51 (TokenTree.punct '+'), 50⟩ := by
  have h := fromStreamAux_punct_replicate 52 0 [] (by simp)
  simp only [List.length_nil, Nat.sub_zero, List.nil_append] at h
  have hmin : min 52 51 = 51 := by omega
  rw [hmin] at h
  simp only [Incomplete.from_stream, Input.fromStream]
  rw [h]
  simp [DEFAULT_MAX_TRAILING]

/-- The display of the 51-tree diagnostic, decomposed as prefix plus suffix. -/
theorem display_51_decomposed :
    Incomplete.display ⟨List.replicate 51 (TokenTree.punct '+'), 50⟩
      = (renderTrees (List.replicate 50 (TokenTree.punct '+')) ++ " [and ")
        ++ "1 more ...]" := by
  simp only [Incomplete.display]
  rw [if_pos (by simp)]
  rw [List.take_replicate]
  have hmin : min 50 51 = 50 := by omega
  rw [hmin]
  have hN : toString ((List.replicate 51 (TokenTree.punct '+')).length - 50) = "1" := by
    simp
    rfl
  rw [hN, String.append_assoc]
  rfl

/-- Claim C2 counterexample: over a stream of 52 remaining printable tokens (true count
− cap = 2) the code stops draining at 51 collected trees, and the rendered message
ends with `" [and 1 more ...]"`, not `" [and 2 more ...]"` as the claim requires. -/
theorem diag_cap_counterexample :
    Incomplete.from_stream (Input.fromStream (List.replicate 52 (TokenTree.punct '+')))
      = Option.some ⟨List.replicate 51 (TokenTree.punct '+'), 50⟩ ∧
    ¬ strEndsWith (Incomplete.display ⟨List.replicate 51 (TokenTree.punct '+'), 50⟩)
        " [and 2 more ...]" ∧
    strEndsWith (Incomplete.display ⟨List.replicate 51 (TokenTree.punct '+'), 50⟩)
        " [and 1 more ...]" := by
  refine ⟨from_stream_52, ?_, ?_⟩
  · rintro ⟨Y, hY⟩
    rw [display_51_decomposed] at hY
    have hY2 : (renderTrees (List.replicate 50 (TokenTree.punct '+')) ++ " [and ")
        ++ "1 more ...]" = (Y ++ " [and ") ++ "2 more ...]" := by
      rw [hY, String.append_assoc]
      rfl
    have hdata := congrArg String.data hY2
    rw [String.data_append, String.data_append] at hdata
    have hsuff := (List.append_inj' hdata (by decide)).2
    exact absurd hsuff (by decide)
  · refine ⟨renderTrees (List.replicate 50 (TokenTree.punct '+')), ?_⟩
    rw [display_51_decomposed, String.append_assoc]
    rfl

/-- Claim C2 amended: the drain loop stops once 51 printable tokens are collected (it
never computes the true total), so every produced diagnostic holds at most 51 trees,
and whenever the cap is exceeded the rendered message ends with `" [and 1 more ...]"`
(N is always `min(true count, 51) − 50 = 1`), regardless of the true remaining
count. -/
theorem diag_cap_amended : ∀ (s : Input) (inc : Incomplete),
    Incomplete.from_stream s = Option.some inc →
      inc.trailing.length ≤ 51 ∧
      (inc.trailing.length > 50 →
        inc.display
          = renderTrees (inc.trailing.take 50) ++ " [and " ++ "1" ++ " more ...]") := by
  intro s inc h
  obtain ⟨tr, mt⟩ := inc
  simp only [Incomplete.from_stream] at h
  split at h
  · next hpos =>
      injection h with h
      injection h with h1 h2
      subst h1
      subst h2
      dsimp only
      have hlen : (fromStreamAux s []).length ≤ 51 :=
        fromStreamAux_len (stackMeasure s.source_stack) s [] (le_refl _) (by simp)
      refine ⟨hlen, ?_⟩
      intro h50
      have h51 : (fromStreamAux s []).length = 51 := by omega
      simp only [Incomplete.display, DEFAULT_MAX_TRAILING]
      rw [if_pos (by rw [h51]; omega)]
      rw [h51]
      rfl
  · next hneg =>
      exact absurd h (by simp)

/-- C2 witness: the amended facts at the diagnostic produced from 52 trailing
puncts. -/
theorem diag_cap_amended_witness :
    (⟨List.replicate 51 (TokenTree.punct '+'), 50⟩ : Incomplete).trailing.length ≤ 51 ∧
    (⟨List.replicate 51 (TokenTree.punct '+'), 50⟩ : Incomplete).display
      = renderTrees ((List.replicate 51 (TokenTree.punct '+')).take 50)
        ++ " [and " ++ "1" ++ " more ...]" := by
  have h := diag_cap_amended
    (Input.fromStream (List.replicate 52 (TokenTree.punct '+')))
    ⟨List.replicate 51 (TokenTree.punct '+'), 50⟩ from_stream_52
  exact ⟨h.1, h.2 (by simp)⟩

/-- The drain loop collects nothing from a stream whose remaining tokens are all
delimiters. -/
theorem fromStreamAux_all_delim :
    ∀ (n : Nat) (s : Input) (t : List TokenTree),
      stackMeasure s.source_stack ≤ n →
      (∀ tok ∈ remaining s, ∃ c, tok = Token.delim c) →
      fromStreamAux s t = t := by
  intro n
  induction n with
  | zero =>
      intro s t hm hall
      have hstack : s.source_stack = [] := by
        cases hs : s.source_stack with
        | nil => rfl
        | cons f rest =>
            rw [hs] at hm
            simp [stackMeasure] at hm
      exact fromStreamAux_err (by simp [Input.uncons, Input.next, hstack, nextAux])
  | succ n ih =>
      intro s t hm hall
      rcases hu : Input.uncons s with ⟨r, s'⟩
      cases r with
      | error e =>
          have he := (uncons_err_parts hu).1
          subst he
          exact fromStreamAux_err (by rw [hu])
      | ok tok =>
          rw [fromStreamAux_ok hu]
          have hrem := uncons_ok_remaining hu
          obtain ⟨c, rfl⟩ := hall tok (by rw [hrem]; simp)
          simp only [Token.toTree, Option.toList, List.append_nil]
          split
          · rfl
          · refine ih s' t ?_ ?_
            · have := unconsOkDecreases s _ s' hu
              omega
            · intro tk htk
              exact hall tk (by rw [hrem]; simp [htk])

/-- Claim C9: `Incomplete::from_stream` discards every `Delim` token it drains (its tree
conversion is `Err` for any delimiter, open or close), so delimiters appear neither in
the collected trees nor in the count; consequently any stream whose remaining tokens
are all `Delim` tokens — not only an exhausted one — produces no diagnostic. -/
theorem delim_tokens_discarded :
    (∀ c : Char, Token.toTree (Token.delim c) = Option.none) ∧
    (∀ s : Input, (∀ tok ∈ remaining s, ∃ c, tok = Token.delim c) →
      Incomplete.from_stream s = Option.none) := by
  constructor
  · intro c
    rfl
  · intro s hall
    have h := fromStreamAux_all_delim (stackMeasure s.source_stack) s []
      (le_refl _) hall
    simp [Incomplete.from_stream, h]

/-- The remaining tokens of the stream of one empty parenthesised group: the two
delimiters. -/
theorem remaining_paren_empty :
    remaining (Input.fromStream [TokenTree.group Delimiter.parenthesis []])
      = [Token.delim '(', Token.delim ')'] := by
  have h1 : nextAux [([TokenTree.group Delimiter.parenthesis []], Option.none)]
      = (Option.some (Token.delim '('),
         [(([] : List TokenTree), Option.some (Token.delim ')')),
          (([] : List TokenTree), (Option.none : Option Token))]) := by
    simp [nextAux, delimChars]
  have h2 : nextAux [(([] : List TokenTree), Option.some (Token.delim ')')),
      (([] : List TokenTree), (Option.none : Option Token))]
      = (Option.some (Token.delim ')'),
         [(([] : List TokenTree), (Option.none : Option Token))]) := by
    simp [nextAux]
  have h3 : nextAux [(([] : List TokenTree), (Option.none : Option Token))]
      = (Option.none, []) := by
    simp [nextAux]
  simp only [remaining, Input.fromStream]
  rw [drain_some h1, drain_some h2, drain_none h3]

/-- C9 witness: the non-exhausted stream of one empty parenthesised group (two
remaining `Delim` tokens) produces no diagnostic. -/
theorem delim_tokens_discarded_witness :
    remaining (Input.fromStream [TokenTree.group Delimiter.parenthesis []]) ≠ [] ∧
    Incomplete.from_stream (Input.fromStream [TokenTree.group Delimiter.parenthesis []])
      = Option.none := by
  constructor
  · rw [remaining_paren_empty]
    simp
  · refine delim_tokens_discarded.2 _ ?_
    rw [remaining_paren_empty]
    intro tok htok
    simp only [List.mem_cons, List.not_mem_nil, or_false] at htok
    rcases htok with rfl | rfl
    · exact ⟨'(', rfl⟩
    · exact ⟨')', rfl⟩

end CPM
